import Mathlib

/-!
# Verification of the logux-vuex replay engine specification

The repository layers a mutation-based state store on top of an append-only,
totally-id-ordered action log.  The core replay engine (History Engine,
Mutation Applier, Undo Processor, Garbage Collector, Commit Router) is not
present under `src/` — only its test-suite, typings and README are — so the
engine is modelled here from the specification's words (each such definition
says so in its doc comment).  The channel-subscription reference counting
(`subscribe` / `unsubscribe`) *is* present in the sources
(`src/unnamed/part_002` and `src/subscription-mixin/index.js`) and is embedded
from that code directly.
-/

namespace LoguxVuex

/-- Modelled from the spec: `ComparableId` totally orders log entries,
"primarily by logical time, tie-broken by originating node identifier,
tie-broken by a per-node monotonically increasing counter" (spec §3). -/
structure ComparableId where
  time : Nat
  node : Nat
  counter : Nat
deriving DecidableEq, Repr

/-- Modelled from the spec: the strict total order on `ComparableId`
(lexicographic on time, node, counter). -/
def idLt (a b : ComparableId) : Prop :=
  a.time < b.time ∨
    (a.time = b.time ∧
      (a.node < b.node ∨ (a.node = b.node ∧ a.counter < b.counter)))

instance (a b : ComparableId) : Decidable (idLt a b) := by
  unfold idLt; exact inferInstance

/-- Non-strict companion of `idLt`. -/
def idLe (a b : ComparableId) : Prop := idLt a b ∨ a = b

instance (a b : ComparableId) : Decidable (idLe a b) := by
  unfold idLe; exact inferInstance

/-- Modelled from the spec: an action is "a tagged record describing an
intended state change, with a type and payload" (glossary).  The extra fields
carry the payloads the control actions of §4.1/§4.3 need: `targetId` and
`reason` for `logux/undo` and `logux/processed`, `newState` for
`logux/state`'s full state replacement. -/
structure Action (σ : Type) where
  type : String
  value : String := ""
  targetId : Option ComparableId := none
  reason : String := ""
  newState : Option σ := none
deriving DecidableEq, Repr

/-- Modelled from the spec: a log entry
`{action, id, reasons, sync, tab, time}` (spec §3). -/
structure LogEntry (σ : Type) where
  action : Action σ
  id : ComparableId
  reasons : List String := []
  sync : Bool := false
  tab : Option String := none
  time : Nat := 0
  noAutoReason : Bool := false
deriving DecidableEq, Repr

/-- Modelled from the spec: the Mutation Tree is "a static, possibly nested
mapping from namespaced action types to pure state-mutating functions"; the
namespaced keys are plain string-prefixed action types (spec §6), so the tree
is an association list keyed by the full type string. -/
def MutationTree (σ : Type) : Type := List (String × (σ → Action σ → σ))

/-- Looks a mutation up by the action's (possibly namespaced) type string. -/
def mutLookup (tree : MutationTree σ) (ty : String) : Option (σ → Action σ → σ) :=
  (tree.find? (fun p => p.1 == ty)).map (fun p => p.2)

/-- Modelled from the spec: the action types that "are excluded from replay —
they are control/acknowledgment signals only and must never be re-applied as
mutations" (spec §4.2). -/
def excludedTypes : List String :=
  ["logux/processed", "logux/subscribe", "logux/unsubscribe", "logux/undo"]

/-- Modelled from the spec: one step of the Mutation Applier (spec §4.1).
`logux/state` performs a full state replacement; the other control types
never invoke a user mutation; a lookup miss is a no-op. -/
def applyStep (tree : MutationTree σ) (s : σ) (a : Action σ) : σ :=
  if a.type = "logux/state" then
    match a.newState with
    | some ns => ns
    | none => s
  else if a.type ∈ excludedTypes then s
  else
    match mutLookup tree a.type with
    | some m => m s a
    | none => s

/-- Modelled from the spec: "Replay: recomputing state by reapplying a
sequence of log entries in id order from a base snapshot" (glossary). -/
def replayFrom (tree : MutationTree σ) (s : σ) (l : List (LogEntry σ)) : σ :=
  l.foldl (fun st en => applyStep tree st en.action) s

/-- Inserts an entry at its position in ascending id order. -/
def insertById (entry : LogEntry σ) : List (LogEntry σ) → List (LogEntry σ)
  | [] => [entry]
  | x :: xs => if idLt entry.id x.id then entry :: x :: xs else x :: insertById entry xs

/-- Sorts a list of entries into ascending id order by repeated insertion. -/
def sortById (l : List (LogEntry σ)) : List (LogEntry σ) :=
  l.foldr insertById []

/-- Modelled from the spec: the configuration surface of the engine
(spec §6): `saveStateEvery`, `cleanEvery`, `reasonlessHistory` (retained-count
ceiling, default 1000), plus the mutation tree and the store's initial state. -/
structure EngineConfig (σ : Type) where
  tree : MutationTree σ
  initialState : σ
  saveStateEvery : Nat := 50
  cleanEvery : Nat := 25
  reasonlessHistory : Nat := 1000

/-- Modelled from the spec: the History Engine's state (spec §4.2): the
retained log in ascending id order, the Snapshot Store's checkpoints
(`afterId`, state-after-that-entry), the live state, the count of
main-sequence applications since the last checkpoint, whether any retained
history has ever been removed, the actions reported to the missed-history
callback, and the logical time used for locally committed entries. -/
structure Engine (σ : Type) where
  log : List (LogEntry σ) := []
  snapshots : List (ComparableId × σ) := []
  state : σ
  sinceSnapshot : Nat := 0
  historyCleaned : Bool := false
  missed : List (Action σ) := []
  nextTime : Nat := 1

/-- The engine before any entry has been observed. -/
def initEngine (cfg : EngineConfig σ) : Engine σ :=
  { state := cfg.initialState }

/-- Modelled from the spec: locate "the nearest retained Snapshot at or
before `entry.id`" (spec §4.2) — the latest checkpoint strictly below the
given id (ids are unique, so a checkpoint at the id of a *new* entry cannot
exist). -/
def snapBefore (i : ComparableId) : List (ComparableId × σ) → Option (ComparableId × σ)
  | [] => none
  | p :: rest =>
    match snapBefore i rest with
    | none => if idLt p.1 i then some p else none
    | some q => if idLt p.1 i ∧ idLt q.1 p.1 then some p else some q

/-- The oldest retained checkpoint, used by the degraded missed-history path. -/
def oldestSnap : List (ComparableId × σ) → Option (ComparableId × σ)
  | [] => none
  | p :: rest =>
    match oldestSnap rest with
    | none => some p
    | some q => if idLt p.1 q.1 then some p else some q

/-- Modelled from the spec: "whatever is the oldest available state"
(spec §4.2) together with the retained entries above it — the base the
degraded missed-history path replays from. -/
def missedBase (cfg : EngineConfig σ) (e : Engine σ) : σ × List (LogEntry σ) :=
  match oldestSnap e.snapshots with
  | some (aid, s0) => (s0, e.log.filter (fun x => decide (idLt aid x.id)))
  | none => (cfg.initialState, e.log)

/-- Modelled from the spec: the History Engine's reaction to a log `add`
(spec §4.2), with `logux/undo` routed to the Undo Processor (spec §4.3):

* `logux/undo`: locate the target by id; if absent, no state change; if
  present, copy the reverted entry's reasons onto the undo entry, remove the
  target and recompute state from the nearest prior snapshot through the live
  pointer (the target's mutation is thereby skipped).  Snapshots at or above
  the replay base are superseded and dropped.
* id greater than every applied id: the fast path — apply via the Mutation
  Applier, append, and checkpoint every `saveStateEvery` applications.
* id smaller than an already-applied id: transition to Replaying — insert the
  entry at its ordered position and re-apply every retained entry from the
  nearest snapshot at or before `entry.id` (from the initial state when the
  full history is still retained).  Stale snapshots above the base are
  dropped.
* no snapshot covers `entry.id` and history has been cleaned: the degraded
  missed-history path — still apply the new entry relative to the oldest
  available state, and record the action for the missed-history callback
  exactly once, unless the entry declares itself exempt (`noAutoReason`). -/
def Engine.add (cfg : EngineConfig σ) (e : Engine σ) (entry : LogEntry σ) : Engine σ :=
  if entry.action.type = "logux/undo" then
    match entry.action.targetId with
    | none => { e with log := insertById entry e.log }
    | some tid =>
      match e.log.find? (fun x => x.id == tid) with
      | none => { e with log := insertById entry e.log }
      | some target =>
        let undoEntry := { entry with reasons := target.reasons }
        let newLog := insertById undoEntry (e.log.filter (fun x => !(x.id == tid)))
        match snapBefore tid e.snapshots with
        | some (aid, s0) =>
          { e with
            log := newLog
            state := replayFrom cfg.tree s0 (newLog.filter (fun x => decide (idLt aid x.id)))
            snapshots := e.snapshots.filter (fun p => decide (idLe p.1 aid))
            sinceSnapshot := 0 }
        | none =>
          { e with
            log := newLog
            state := replayFrom cfg.tree cfg.initialState newLog
            snapshots := []
            sinceSnapshot := 0 }
  else if ∀ x ∈ e.log, idLt x.id entry.id then
    let s' := applyStep cfg.tree e.state entry.action
    if cfg.saveStateEvery ≤ e.sinceSnapshot + 1 then
      { e with log := e.log ++ [entry], state := s',
               snapshots := e.snapshots ++ [(entry.id, s')], sinceSnapshot := 0 }
    else
      { e with log := e.log ++ [entry], state := s',
               sinceSnapshot := e.sinceSnapshot + 1 }
  else
    let newLog := insertById entry e.log
    match snapBefore entry.id e.snapshots with
    | some (aid, s0) =>
      { e with
        log := newLog
        state := replayFrom cfg.tree s0 (newLog.filter (fun x => decide (idLt aid x.id)))
        snapshots := e.snapshots.filter (fun p => decide (idLe p.1 aid))
        sinceSnapshot := 0 }
    | none =>
      if e.historyCleaned = false then
        { e with
          log := newLog
          state := replayFrom cfg.tree cfg.initialState newLog
          snapshots := []
          sinceSnapshot := 0 }
      else
        let base := missedBase cfg e
        let e1 : Engine σ :=
          { e with
            log := newLog
            state := replayFrom cfg.tree (applyStep cfg.tree base.1 entry.action) base.2 }
        if entry.noAutoReason then e1
        else { e1 with missed := e.missed ++ [entry.action] }

/-- The engine after observing a list of log entries in arrival order. -/
def observeAll (cfg : EngineConfig σ) (e : Engine σ) (l : List (LogEntry σ)) : Engine σ :=
  l.foldl (Engine.add cfg) e

/-- Modelled from the spec: the Garbage Collector's default safety valve —
"the engine requests removal of the oldest entries once the log exceeds a
fixed retained-count ceiling (default 1000)", "even reason-bearing entries
are capped" (spec §4.4).  Checkpoints of removed entries are dropped with
them, and removing history marks it as cleaned. -/
def gcSweep (cfg : EngineConfig σ) (e : Engine σ) : Engine σ :=
  if e.log.length ≤ cfg.reasonlessHistory then e
  else
    let kept := e.log.drop (e.log.length - cfg.reasonlessHistory)
    { e with
      log := kept
      snapshots := e.snapshots.filter (fun p => kept.any (fun x => x.id == p.1))
      historyCleaned := true }

/-- Modelled from the spec: a default-mode commit (spec §4.5) — the Commit
Router appends the action "with an automatically attached per-tab reason tag"
at a fresh, monotonically increasing id; the Garbage Collector is "triggered
on every log add" (spec §4.4), so the sweep runs after the engine observes
the entry. -/
def commitDefault (cfg : EngineConfig σ) (e : Engine σ) (a : Action σ) : Engine σ :=
  let entry : LogEntry σ :=
    { action := a
      id := { time := e.nextTime, node := 0, counter := 0 }
      reasons := ["timeTravelTab"]
      time := e.nextTime }
  gcSweep cfg (Engine.add cfg { e with nextTime := e.nextTime + 1 } entry)

/-- Modelled from the spec: the outcome of a pending sync commit — resolved
by a matching `logux/processed`, or rejected by a matching `logux/undo`
"with the undo's reason and original action attached" (spec §7). -/
inductive SyncOutcome (σ : Type) where
  | processedOk
  | undone (reason : String) (action : Action σ)
deriving DecidableEq, Repr

/-- Modelled from the spec: the "pending-request table keyed by entry id,
resolved/rejected by the control-action handler" (spec §9) that correlates a
sync commit with its acknowledgment.  `pending` maps the id of an in-flight
sync commit to its original action; `outcomes` records, in order, each
completion signal delivered to a caller. -/
structure PendingTable (σ : Type) where
  pending : List (ComparableId × Action σ) := []
  outcomes : List (ComparableId × SyncOutcome σ) := []
deriving DecidableEq, Repr

/-- The original action tracked for a given pending id, if any. -/
def pendingLookup (t : PendingTable σ) (i : ComparableId) : Option (Action σ) :=
  (t.pending.find? (fun p => decide (p.1 = i))).map (fun p => p.2)

/-- Modelled from the spec: a sync commit registers its entry id and action
in the pending table ("tracked by id so that a later `logux/processed` or
`logux/undo` control action can resolve or reject the corresponding
completion promise", spec §3). -/
def commitSync (t : PendingTable σ) (i : ComparableId) (a : Action σ) : PendingTable σ :=
  { t with pending := (i, a) :: t.pending }

/-- A `logux/processed` control action acknowledging the entry `i`. -/
def processedAction (σ : Type) (i : ComparableId) : Action σ :=
  { type := "logux/processed", targetId := some i }

/-- A `logux/undo` control action reverting the entry `i` for reason `r`. -/
def undoAction (σ : Type) (i : ComparableId) (r : String) : Action σ :=
  { type := "logux/undo", targetId := some i, reason := r }

/-- Modelled from the spec: the control-action handler of the
request/acknowledgment correlation (spec §4.5/§9).  A `logux/processed`
resolves the pending commit with a matching id; a `logux/undo` rejects it,
carrying the undo's reason and the original action; a control action whose
id matches no pending commit changes nothing. -/
def handleControl (t : PendingTable σ) (ctrl : Action σ) : PendingTable σ :=
  if ctrl.type = "logux/processed" then
    match ctrl.targetId with
    | some tid =>
      match pendingLookup t tid with
      | some _ =>
        { pending := t.pending.filter (fun p => !(decide (p.1 = tid)))
          outcomes := t.outcomes ++ [(tid, SyncOutcome.processedOk)] }
      | none => t
    | none => t
  else if ctrl.type = "logux/undo" then
    match ctrl.targetId with
    | some tid =>
      match pendingLookup t tid with
      | some a =>
        { pending := t.pending.filter (fun p => !(decide (p.1 = tid)))
          outcomes := t.outcomes ++ [(tid, SyncOutcome.undone ctrl.reason a)] }
      | none => t
    | none => t
  else t

/-!
## Channel subscriptions (embedded from the source)

`subscribe` and `unsubscribe` below embed `src/unnamed/part_002` (the
`useSubscription` composable's helpers; `src/subscription-mixin/index.js`
carries the identical functions).  A channel is either a string or an object
with a `channel` field; `unifyChannelsObject` canonicalizes a channel to the
object form and keys all bookkeeping by its JSON serialization — here the
canonical record itself, compared structurally.  JavaScript number semantics
(`undefined`, `NaN`, the `!x` reset) are kept, since `subscribers[json] -= 1`
on an absent key yields `NaN` in the source.
-/

/-- A channel argument: a plain string or an object with a `channel` field
plus extra properties (`src/unnamed/part_004`). -/
inductive Channel where
  | str (channel : String)
  | obj (channel : String) (extra : List (String × String))
deriving DecidableEq, Repr

/-- The canonical subscription descriptor
(`typeof i === 'string' ? { channel: i } : i` in `unifyChannelsObject`). -/
structure Subscription where
  channel : String
  extra : List (String × String) := []
deriving DecidableEq, Repr

/-- `unifyChannelsObject`, one channel at a time: the canonical descriptor
that `JSON.stringify` then keys the maps by. -/
def unifyChannel : Channel → Subscription
  | Channel.str c => { channel := c }
  | Channel.obj c e => { channel := c, extra := e }

/-- A JavaScript numeric counter value: a number or `NaN`. -/
inductive JsNum where
  | num (v : Int)
  | nan
deriving DecidableEq, Repr

/-- Updates (or adds) the binding of `k` in an association list. -/
def setAssoc [DecidableEq α] (l : List (α × β)) (k : α) (v : β) : List (α × β) :=
  match l with
  | [] => [(k, v)]
  | p :: rest => if p.1 = k then (k, v) :: rest else p :: setAssoc rest k v

/-- Removes the binding of `k` from an association list (`delete` in JS). -/
def eraseAssoc [DecidableEq α] (l : List (α × β)) (k : α) : List (α × β) :=
  l.filter (fun p => !(decide (p.1 = k)))

/-- Looks `k` up in an association list. -/
def getAssoc [DecidableEq α] (l : List (α × β)) (k : α) : Option β :=
  (l.find? (fun p => decide (p.1 = k))).map (fun p => p.2)

/-- The subscription bookkeeping the source hangs off the store object:
`store.subscribers` (reference counters keyed by the canonical descriptor),
`store.subscriptions` (the completion promise of the open `logux/subscribe`
sync commit, represented by a serial number), and the actions the store has
sent: `sentSubscribe` records each `commit.sync(logux/subscribe)` call,
`sentUnsubscribe` each `log.add(logux/unsubscribe, {sync: true})` call. -/
structure SubStore where
  subscribers : List (Subscription × JsNum) := []
  subscriptions : List (Subscription × Nat) := []
  sentSubscribe : List Subscription := []
  sentUnsubscribe : List Subscription := []
  nextPromise : Nat := 0
deriving DecidableEq, Repr

/-- `subscribe` from `src/unnamed/part_002` (lines 69–84), for a single
channel: reset a falsy counter to `0`, increment it, and on the transition to
`1` send one `logux/subscribe` sync commit and store its promise; every call
returns `store.subscriptions[json]`. -/
def subscribeOne (s : SubStore) (c : Channel) : SubStore × Option Nat :=
  let k := unifyChannel c
  let base : JsNum :=
    match getAssoc s.subscribers k with
    | none => JsNum.num 0
    | some JsNum.nan => JsNum.num 0
    | some (JsNum.num v) => if v = 0 then JsNum.num 0 else JsNum.num v
  let cnt : JsNum :=
    match base with
    | JsNum.num v => JsNum.num (v + 1)
    | JsNum.nan => JsNum.nan
  let s1 := { s with subscribers := setAssoc s.subscribers k cnt }
  if cnt = JsNum.num 1 then
    let s2 :=
      { s1 with
        subscriptions := setAssoc s1.subscriptions k s1.nextPromise
        sentSubscribe := s1.sentSubscribe ++ [k]
        nextPromise := s1.nextPromise + 1 }
    (s2, getAssoc s2.subscriptions k)
  else (s1, getAssoc s1.subscriptions k)

/-- `unsubscribe` from `src/unnamed/part_002` (lines 86–97), for a single
channel: decrement the counter (`undefined - 1` is `NaN`), and exactly when
it reaches `0` send one `logux/unsubscribe` action and delete the stored
promise. -/
def unsubscribeOne (s : SubStore) (c : Channel) : SubStore :=
  let k := unifyChannel c
  let cnt : JsNum :=
    match getAssoc s.subscribers k with
    | none => JsNum.nan
    | some JsNum.nan => JsNum.nan
    | some (JsNum.num v) => JsNum.num (v - 1)
  let s1 := { s with subscribers := setAssoc s.subscribers k cnt }
  if cnt = JsNum.num 0 then
    { s1 with
      sentUnsubscribe := s1.sentUnsubscribe ++ [k]
      subscriptions := eraseAssoc s1.subscriptions k }
  else s1

/-- `n` consecutive `subscribe` calls for the same channel, collecting the
promise each caller receives. -/
def subscribeN (s : SubStore) (c : Channel) : Nat → SubStore × List (Option Nat)
  | 0 => (s, [])
  | n + 1 =>
    let r := subscribeOne s c
    let rest := subscribeN r.1 c n
    (rest.1, r.2 :: rest.2)

/-- `n` consecutive `unsubscribe` calls for the same channel. -/
def unsubscribeN (s : SubStore) (c : Channel) : Nat → SubStore
  | 0 => s
  | n + 1 => unsubscribeN (unsubscribeOne s c) c n

/-- The strict id order lifted to log entries. -/
def entryBefore (x y : LogEntry σ) : Prop := idLt x.id y.id

instance (x y : LogEntry σ) : Decidable (entryBefore x y) := by
  unfold entryBefore; exact inferInstance

/-- A log in strictly ascending id order. -/
def SortedLog (l : List (LogEntry σ)) : Prop := l.Pairwise entryBefore

instance {σ : Type} : IsAntisymm (LogEntry σ) entryBefore where
  antisymm a b hab hba := by
    obtain ⟨ta, na, ca⟩ := a.id
    obtain ⟨tb, nb, cb⟩ := b.id
    simp only [entryBefore, idLt] at hab hba
    omega

/-- The state the specification promises: the initial state with the
mutations of a list of entries applied in the list's order. -/
def stateOf (cfg : EngineConfig σ) (l : List (LogEntry σ)) : σ :=
  replayFrom cfg.tree cfg.initialState l

/-- A checkpoint is consistent with the retained log: its state is the one
obtained by replaying every retained entry with id at or before `afterId`
(spec §3: "the state immediately after applying the entry at `afterId`"). -/
def SnapOk (cfg : EngineConfig σ) (l : List (LogEntry σ)) (p : ComparableId × σ) : Prop :=
  p.2 = stateOf cfg (l.filter (fun x => decide (idLe x.id p.1)))

/-- The engine's internal consistency while full history is retained: the
log is in ascending id order, the live state is the replay of the whole
retained log, and every checkpoint is consistent and anchored at a retained
entry. -/
def Inv (cfg : EngineConfig σ) (e : Engine σ) : Prop :=
  SortedLog e.log ∧
  e.state = stateOf cfg e.log ∧
  (∀ p ∈ e.snapshots, SnapOk cfg e.log p) ∧
  (∀ p ∈ e.snapshots, ∃ x ∈ e.log, x.id = p.1)

/-- A string-appending mutation tree, mirroring the test-suite's
`historyLine` mutation, used to evaluate the theorems on concrete inputs. -/
def treeW : MutationTree String := [("app", fun s a => s ++ a.value)]

/-- A concrete engine configuration over `String` states. -/
def cfgW : EngineConfig String := { tree := treeW, initialState := "0" }

/-- A concrete id at logical time `t`. -/
def idW (t : Nat) : ComparableId := { time := t, node := 0, counter := 0 }

/-- A concrete `app` entry at time `t` carrying payload `v`. -/
def entW (t : Nat) (v : String) : LogEntry String :=
  { action := { type := "app", value := v }, id := idW t, reasons := ["test"] }

/-- A concrete `logux/undo` entry at time `t` targeting `tid`. -/
def undoW (t : Nat) (tid : ComparableId) : LogEntry String :=
  { action := { type := "logux/undo", targetId := some tid },
    id := idW t, reasons := ["test"] }

/-- A tree that (incorrectly, were it ever invoked) registers a mutation
under the control type `logux/processed`. -/
def treeCtl : MutationTree Nat := [("logux/processed", fun s _ => s + 100)]

/-- A concrete `logux/processed` action. -/
def ctlA : Action Nat := { type := "logux/processed" }

/-- A log entry carrying `ctlA`. -/
def ctlEnt : LogEntry Nat := { action := ctlA, id := idW 1 }

/-- A counter mutation tree over `Nat` states. -/
def treeInc : MutationTree Nat := [("inc", fun s _ => s + 1)]

/-- A concrete configuration over `Nat` states. -/
def cfgN : EngineConfig Nat := { tree := treeInc, initialState := 0 }

/-- A `logux/state` entry replacing the state with `5`. -/
def stateEnt : LogEntry Nat :=
  { action := { type := "logux/state", newState := some 5 }, id := idW 1 }

/-- An entry whose action type has no registered mutation. -/
def unkEnt : LogEntry Nat := { action := { type := "mystery" }, id := idW 1 }

/-- An undo entry whose target id matches nothing in an empty log. -/
def undoEntN : LogEntry Nat :=
  { action := { type := "logux/undo", targetId := some (idW 9) }, id := idW 1 }

/-- A one-entry engine over `String` states, for evaluating the undo paths. -/
def engW : Engine String := { log := [entW 1 "a"], state := "0a" }

/-- An engine whose older history has been cleaned: one retained entry, no
snapshots, `historyCleaned` set. -/
def engC : Engine String :=
  { log := [entW 2 "b"], state := "0b", historyCleaned := true }

/-- A concrete user action. -/
def actA : Action Nat := { type := "A" }

/-- A pending table with one in-flight sync commit. -/
def tC : PendingTable Nat := { pending := [(idW 1, actA)] }

/-! ## Order lemmas -/

theorem idLt_irrefl (a : ComparableId) : ¬ idLt a a := by
  obtain ⟨t, n, c⟩ := a
  simp [idLt]

theorem idLt_trans {a b c : ComparableId} (hab : idLt a b) (hbc : idLt b c) : idLt a c := by
  obtain ⟨ta, na, ca⟩ := a
  obtain ⟨tb, nb, cb⟩ := b
  obtain ⟨tc, nc, cc⟩ := c
  simp only [idLt] at hab hbc ⊢
  omega

theorem idLt_asymm {a b : ComparableId} (hab : idLt a b) (hba : idLt b a) : False := by
  obtain ⟨ta, na, ca⟩ := a
  obtain ⟨tb, nb, cb⟩ := b
  simp only [idLt] at hab hba
  omega

theorem idLt_ne {a b : ComparableId} (h : idLt a b) : a ≠ b := by
  rintro rfl
  exact idLt_irrefl a h

theorem idLt_connex {a b : ComparableId} (h : a ≠ b) : idLt a b ∨ idLt b a := by
  obtain ⟨ta, na, ca⟩ := a
  obtain ⟨tb, nb, cb⟩ := b
  have h' : ta ≠ tb ∨ na ≠ nb ∨ ca ≠ cb := by
    by_contra hc
    push_neg at hc
    exact h (by rw [hc.1, hc.2.1, hc.2.2])
  simp only [idLt]
  omega

theorem not_idLt_of_ne {a b : ComparableId} (hne : a ≠ b) (h : ¬ idLt a b) : idLt b a :=
  (idLt_connex hne).resolve_left h

theorem idLe_of_lt {a b : ComparableId} (h : idLt a b) : idLe a b := Or.inl h

theorem idLe_refl (a : ComparableId) : idLe a a := Or.inr rfl

theorem not_idLe_of_lt {a b : ComparableId} (h : idLt a b) : ¬ idLe b a := by
  rintro (h' | rfl)
  · exact idLt_asymm h h'
  · exact idLt_irrefl _ h

theorem idLe_lt_trans {a b c : ComparableId} (hab : idLe a b) (hbc : idLt b c) : idLt a c := by
  rcases hab with h | rfl
  · exact idLt_trans h hbc
  · exact hbc

theorem idLt_le_trans {a b c : ComparableId} (hab : idLt a b) (hbc : idLe b c) : idLt a c := by
  rcases hbc with h | rfl
  · exact idLt_trans hab h
  · exact hab

/-! ## Insertion and filtering lemmas -/

theorem insertById_perm (e : LogEntry σ) (l : List (LogEntry σ)) :
    List.Perm (insertById e l) (e :: l) := by
  induction l with
  | nil => exact List.Perm.refl _
  | cons x xs ih =>
    by_cases h : idLt e.id x.id
    · rw [insertById, if_pos h]
    · rw [insertById, if_neg h]
      exact (ih.cons x).trans (List.Perm.swap e x xs)

theorem insertById_mem {e y : LogEntry σ} {l : List (LogEntry σ)} :
    y ∈ insertById e l ↔ y = e ∨ y ∈ l :=
  ((insertById_perm e l).mem_iff).trans List.mem_cons

theorem insertById_all_lt {e : LogEntry σ} {l : List (LogEntry σ)}
    (h : ∀ y ∈ l, idLt e.id y.id) : insertById e l = e :: l := by
  cases l with
  | nil => rfl
  | cons x xs =>
    simp only [insertById, if_pos (h x (List.mem_cons_self x xs))]

theorem insertById_sorted {e : LogEntry σ} {l : List (LogEntry σ)}
    (hs : SortedLog l) (hf : ∀ x ∈ l, x.id ≠ e.id) : SortedLog (insertById e l) := by
  induction l with
  | nil => simp [insertById, SortedLog]
  | cons x xs ih =>
    rw [SortedLog, List.pairwise_cons] at hs
    obtain ⟨hx, hxs⟩ := hs
    by_cases h : idLt e.id x.id
    · rw [insertById, if_pos h]
      refine List.Pairwise.cons ?_ (List.Pairwise.cons hx hxs)
      intro y hy
      rcases List.mem_cons.mp hy with rfl | hy'
      · exact h
      · exact idLt_trans h (hx y hy')
    · rw [insertById, if_neg h]
      have hxe : idLt x.id e.id :=
        not_idLt_of_ne (fun hh => hf x (List.mem_cons_self x xs) hh.symm) h
      refine List.Pairwise.cons ?_ (ih hxs (fun y hy => hf y (List.mem_cons_of_mem x hy)))
      intro y hy
      rcases insertById_mem.mp hy with rfl | hy'
      · exact hxe
      · exact hx y hy'

theorem filter_insertById (p : LogEntry σ → Bool) {e : LogEntry σ} {l : List (LogEntry σ)}
    (hs : SortedLog l) :
    (insertById e l).filter p =
      if p e then insertById e (l.filter p) else l.filter p := by
  induction l with
  | nil =>
    cases hpe : p e <;> simp [insertById, List.filter_cons, hpe]
  | cons x xs ih =>
    rw [SortedLog, List.pairwise_cons] at hs
    obtain ⟨hx, hxs⟩ := hs
    by_cases h : idLt e.id x.id
    · rw [insertById, if_pos h]
      cases hpe : p e
      · simp [List.filter_cons, hpe]
      · have hall : ∀ y ∈ (x :: xs).filter p, idLt e.id y.id := by
          intro y hy
          rcases List.mem_cons.mp (List.mem_of_mem_filter hy) with rfl | hy'
          · exact h
          · exact idLt_trans h (hx y hy')
        rw [List.filter_cons, hpe, if_pos rfl, if_pos rfl, insertById_all_lt hall]
    · rw [insertById, if_neg h, List.filter_cons, List.filter_cons, ih hxs]
      cases hpe : p e
      · simp [hpe]
      · cases hpx : p x
        · simp [hpe, hpx]
        · simp [hpe, hpx, insertById, h]

theorem sortedLog_filter {l : List (LogEntry σ)} (hs : SortedLog l)
    (p : LogEntry σ → Bool) : SortedLog (l.filter p) :=
  List.Pairwise.sublist (List.filter_sublist l) hs

theorem sorted_perm_eq {l₁ l₂ : List (LogEntry σ)} (hp : List.Perm l₁ l₂)
    (h₁ : SortedLog l₁) (h₂ : SortedLog l₂) : l₁ = l₂ :=
  List.eq_of_perm_of_sorted hp h₁ h₂

theorem sorted_split (cut : ComparableId) {l : List (LogEntry σ)} (hs : SortedLog l) :
    l.filter (fun x => decide (idLe x.id cut)) ++
      l.filter (fun x => decide (idLt cut x.id)) = l := by
  induction l with
  | nil => rfl
  | cons x xs ih =>
    rw [SortedLog, List.pairwise_cons] at hs
    obtain ⟨hx, hxs⟩ := hs
    by_cases h : idLe x.id cut
    · have h2 : ¬ idLt cut x.id := fun hc => not_idLe_of_lt hc h
      rw [List.filter_cons, List.filter_cons, decide_eq_true h, decide_eq_false h2,
        if_pos rfl, if_neg Bool.false_ne_true, List.cons_append, ih hxs]
    · have hne : x.id ≠ cut := fun hh => h (Or.inr hh)
      have hnlt : ¬ idLt x.id cut := fun hh => h (Or.inl hh)
      have hcx : idLt cut x.id := not_idLt_of_ne hne hnlt
      have hfle : xs.filter (fun y => decide (idLe y.id cut)) = [] := by
        rw [List.filter_eq_nil_iff]
        intro y hy
        simp only [decide_eq_true_eq]
        exact not_idLe_of_lt (idLt_trans hcx (hx y hy))
      have hfgt : xs.filter (fun y => decide (idLt cut y.id)) = xs := by
        rw [List.filter_eq_self]
        intro y hy
        simp only [decide_eq_true_eq]
        exact idLt_trans hcx (hx y hy)
      rw [List.filter_cons, List.filter_cons, decide_eq_true hcx, decide_eq_false h,
        if_pos rfl, if_neg Bool.false_ne_true, hfle, hfgt, List.nil_append]

theorem filter_erase_high {l : List (LogEntry σ)} {cut tid : ComparableId}
    (h : idLt cut tid) :
    (l.filter (fun x => !(x.id == tid))).filter (fun x => decide (idLe x.id cut)) =
      l.filter (fun x => decide (idLe x.id cut)) := by
  induction l with
  | nil => rfl
  | cons x xs ih =>
    by_cases hle : idLe x.id cut
    · have hne : (x.id == tid) = false := by
        rw [beq_eq_false_iff_ne]
        exact idLt_ne (idLe_lt_trans hle h)
      simp [List.filter_cons, hne, hle, ih]
    · cases hq : (x.id == tid) <;> simp [List.filter_cons, hle, hq, ih]

/-! ## Replay lemmas -/

theorem replayFrom_append (tree : MutationTree σ) (s : σ) (l₁ l₂ : List (LogEntry σ)) :
    replayFrom tree s (l₁ ++ l₂) = replayFrom tree (replayFrom tree s l₁) l₂ := by
  simp [replayFrom, List.foldl_append]

theorem replayFrom_cons (tree : MutationTree σ) (s : σ) (e : LogEntry σ)
    (l : List (LogEntry σ)) :
    replayFrom tree s (e :: l) = replayFrom tree (applyStep tree s e.action) l := rfl

theorem applyStep_excluded {tree : MutationTree σ} {a : Action σ}
    (h : a.type ∈ excludedTypes) (s : σ) : applyStep tree s a = s := by
  have hne : a.type ≠ "logux/state" := by
    intro hh
    rw [hh] at h
    revert h
    decide
  rw [applyStep, if_neg hne, if_pos h]

theorem applyStep_undo {tree : MutationTree σ} {a : Action σ}
    (h : a.type = "logux/undo") (s : σ) : applyStep tree s a = s :=
  applyStep_excluded (by rw [h]; decide) s

theorem applyStep_unknown {tree : MutationTree σ} {a : Action σ}
    (hstate : a.type ≠ "logux/state") (hexcl : a.type ∉ excludedTypes)
    (hmiss : mutLookup tree a.type = none) (s : σ) : applyStep tree s a = s := by
  rw [applyStep, if_neg hstate, if_neg hexcl, hmiss]

theorem replayFrom_insert_noop {tree : MutationTree σ} {e : LogEntry σ}
    (hnoop : ∀ s, applyStep tree s e.action = s) (s : σ) (l : List (LogEntry σ)) :
    replayFrom tree s (insertById e l) = replayFrom tree s l := by
  induction l generalizing s with
  | nil =>
    show replayFrom tree s [e] = s
    rw [replayFrom_cons, hnoop]
    rfl
  | cons x xs ih =>
    by_cases h : idLt e.id x.id
    · rw [insertById, if_pos h, replayFrom_cons, hnoop]
    · rw [insertById, if_neg h, replayFrom_cons, ih, replayFrom_cons]

theorem replayFrom_middle_noop {tree : MutationTree σ} {e : LogEntry σ}
    (hnoop : ∀ s, applyStep tree s e.action = s) (s : σ) (l₁ l₂ : List (LogEntry σ)) :
    replayFrom tree s (l₁ ++ e :: l₂) = replayFrom tree s (l₁ ++ l₂) := by
  rw [replayFrom_append, replayFrom_append, replayFrom_cons, hnoop]

/-! ## Snapshot lemmas -/

theorem snapBefore_mem {i : ComparableId} {snaps : List (ComparableId × σ)}
    {p : ComparableId × σ} (h : snapBefore i snaps = some p) :
    p ∈ snaps ∧ idLt p.1 i := by
  induction snaps with
  | nil => simp [snapBefore] at h
  | cons q rest ih =>
    rw [snapBefore] at h
    split at h
    · split at h
      · rename_i hq
        injection h with h
        subst h
        exact ⟨List.mem_cons_self q rest, hq⟩
      · exact absurd h (by simp)
    · rename_i r hrec
      split at h
      · rename_i hq
        injection h with h
        subst h
        exact ⟨List.mem_cons_self q rest, hq.1⟩
      · injection h with h
        subst h
        obtain ⟨hmem, hlt⟩ := ih hrec
        exact ⟨List.mem_cons_of_mem q hmem, hlt⟩

theorem inv_init (cfg : EngineConfig σ) : Inv cfg (initEngine cfg) := by
  refine ⟨List.Pairwise.nil, rfl, ?_, ?_⟩ <;> intro p hp <;> exact absurd hp (by simp [initEngine])

/-! ## Branch characterizations of `Engine.add` -/

theorem add_fast_snap_eq (cfg : EngineConfig σ) (e : Engine σ) (entry : LogEntry σ)
    (hty : entry.action.type ≠ "logux/undo")
    (hfast : ∀ x ∈ e.log, idLt x.id entry.id)
    (hsnap : cfg.saveStateEvery ≤ e.sinceSnapshot + 1) :
    Engine.add cfg e entry =
      { e with log := e.log ++ [entry],
               state := applyStep cfg.tree e.state entry.action,
               snapshots := e.snapshots ++ [(entry.id, applyStep cfg.tree e.state entry.action)],
               sinceSnapshot := 0 } := by
  unfold Engine.add
  rw [if_neg hty, if_pos hfast, if_pos hsnap]

theorem add_fast_nosnap_eq (cfg : EngineConfig σ) (e : Engine σ) (entry : LogEntry σ)
    (hty : entry.action.type ≠ "logux/undo")
    (hfast : ∀ x ∈ e.log, idLt x.id entry.id)
    (hsnap : ¬ cfg.saveStateEvery ≤ e.sinceSnapshot + 1) :
    Engine.add cfg e entry =
      { e with log := e.log ++ [entry],
               state := applyStep cfg.tree e.state entry.action,
               sinceSnapshot := e.sinceSnapshot + 1 } := by
  unfold Engine.add
  rw [if_neg hty, if_pos hfast, if_neg hsnap]

theorem add_replay_snap_eq (cfg : EngineConfig σ) (e : Engine σ) (entry : LogEntry σ)
    (aid : ComparableId) (s0 : σ)
    (hty : entry.action.type ≠ "logux/undo")
    (hnfast : ¬ ∀ x ∈ e.log, idLt x.id entry.id)
    (hsb : snapBefore entry.id e.snapshots = some (aid, s0)) :
    Engine.add cfg e entry =
      { e with log := insertById entry e.log,
               state := replayFrom cfg.tree s0
                 ((insertById entry e.log).filter (fun x => decide (idLt aid x.id))),
               snapshots := e.snapshots.filter (fun p => decide (idLe p.1 aid)),
               sinceSnapshot := 0 } := by
  unfold Engine.add
  rw [if_neg hty, if_neg hnfast]
  split
  · rename_i aid' s0' heq
    rw [hsb] at heq
    injection heq with heq
    cases heq
    rfl
  · rename_i heq
    simp [hsb] at heq

theorem add_replay_none_eq (cfg : EngineConfig σ) (e : Engine σ) (entry : LogEntry σ)
    (hty : entry.action.type ≠ "logux/undo")
    (hnfast : ¬ ∀ x ∈ e.log, idLt x.id entry.id)
    (hsb : snapBefore entry.id e.snapshots = none)
    (hclean : e.historyCleaned = false) :
    Engine.add cfg e entry =
      { e with log := insertById entry e.log,
               state := replayFrom cfg.tree cfg.initialState (insertById entry e.log),
               snapshots := [],
               sinceSnapshot := 0 } := by
  unfold Engine.add
  rw [if_neg hty, if_neg hnfast]
  split
  · rename_i aid' s0' heq
    simp [hsb] at heq
  · rw [if_pos hclean]

theorem add_missed_eq (cfg : EngineConfig σ) (e : Engine σ) (entry : LogEntry σ)
    (hty : entry.action.type ≠ "logux/undo")
    (hnfast : ¬ ∀ x ∈ e.log, idLt x.id entry.id)
    (hsb : snapBefore entry.id e.snapshots = none)
    (hclean : e.historyCleaned = true)
    (hna : entry.noAutoReason = false) :
    Engine.add cfg e entry =
      { e with log := insertById entry e.log,
               state := replayFrom cfg.tree
                 (applyStep cfg.tree (missedBase cfg e).1 entry.action) (missedBase cfg e).2,
               missed := e.missed ++ [entry.action] } := by
  unfold Engine.add
  rw [if_neg hty, if_neg hnfast]
  split
  · rename_i aid' s0' heq
    simp [hsb] at heq
  · rw [if_neg (by simp [hclean]), if_neg (by simp [hna])]

theorem add_undo_missing_eq (cfg : EngineConfig σ) (e : Engine σ) (entry : LogEntry σ)
    (tid : ComparableId)
    (hty : entry.action.type = "logux/undo")
    (htid : entry.action.targetId = some tid)
    (hfind : e.log.find? (fun x => x.id == tid) = none) :
    Engine.add cfg e entry = { e with log := insertById entry e.log } := by
  unfold Engine.add
  rw [if_pos hty]
  split
  · rename_i heq
    simp [htid] at heq
  · rename_i tid' heq
    rw [htid] at heq
    injection heq with heq
    cases heq
    split
    · rfl
    · rename_i target heq2
      simp [hfind] at heq2

theorem add_undo_found_snap_eq (cfg : EngineConfig σ) (e : Engine σ) (entry : LogEntry σ)
    (tid : ComparableId) (target : LogEntry σ) (aid : ComparableId) (s0 : σ)
    (hty : entry.action.type = "logux/undo")
    (htid : entry.action.targetId = some tid)
    (hfind : e.log.find? (fun x => x.id == tid) = some target)
    (hsb : snapBefore tid e.snapshots = some (aid, s0)) :
    Engine.add cfg e entry =
      { e with
        log := insertById { entry with reasons := target.reasons }
          (e.log.filter (fun x => !(x.id == tid))),
        state := replayFrom cfg.tree s0
          ((insertById { entry with reasons := target.reasons }
            (e.log.filter (fun x => !(x.id == tid)))).filter
              (fun x => decide (idLt aid x.id))),
        snapshots := e.snapshots.filter (fun p => decide (idLe p.1 aid)),
        sinceSnapshot := 0 } := by
  unfold Engine.add
  rw [if_pos hty]
  split
  · rename_i heq
    simp [htid] at heq
  · rename_i tid' heq
    rw [htid] at heq
    injection heq with heq
    cases heq
    split
    · rename_i heq2
      simp [hfind] at heq2
    · rename_i target' heq2
      rw [hfind] at heq2
      injection heq2 with heq2
      cases heq2
      split
      · rename_i aid' s0' heq3
        rw [hsb] at heq3
        injection heq3 with heq3
        cases heq3
        rfl
      · rename_i heq3
        simp [hsb] at heq3

theorem add_undo_found_none_eq (cfg : EngineConfig σ) (e : Engine σ) (entry : LogEntry σ)
    (tid : ComparableId) (target : LogEntry σ)
    (hty : entry.action.type = "logux/undo")
    (htid : entry.action.targetId = some tid)
    (hfind : e.log.find? (fun x => x.id == tid) = some target)
    (hsb : snapBefore tid e.snapshots = none) :
    Engine.add cfg e entry =
      { e with
        log := insertById { entry with reasons := target.reasons }
          (e.log.filter (fun x => !(x.id == tid))),
        state := replayFrom cfg.tree cfg.initialState
          (insertById { entry with reasons := target.reasons }
            (e.log.filter (fun x => !(x.id == tid)))),
        snapshots := [],
        sinceSnapshot := 0 } := by
  unfold Engine.add
  rw [if_pos hty]
  split
  · rename_i heq
    simp [htid] at heq
  · rename_i tid' heq
    rw [htid] at heq
    injection heq with heq
    cases heq
    split
    · rename_i heq2
      simp [hfind] at heq2
    · rename_i target' heq2
      rw [hfind] at heq2
      injection heq2 with heq2
      cases heq2
      split
      · rename_i aid' s0' heq3
        simp [hsb] at heq3
      · rfl

/-! ## Invariant preservation -/

theorem stateOf_append (cfg : EngineConfig σ) (l₁ l₂ : List (LogEntry σ)) :
    stateOf cfg (l₁ ++ l₂) = replayFrom cfg.tree (stateOf cfg l₁) l₂ :=
  replayFrom_append cfg.tree cfg.initialState l₁ l₂

theorem replayFrom_singleton (tree : MutationTree σ) (s : σ) (e : LogEntry σ) :
    replayFrom tree s [e] = applyStep tree s e.action := rfl

theorem find?_id_eq {l : List (LogEntry σ)} {tid : ComparableId} {target : LogEntry σ}
    (h : l.find? (fun x => x.id == tid) = some target) : target ∈ l ∧ target.id = tid := by
  refine ⟨List.mem_of_find?_eq_some h, ?_⟩
  have h2 := List.find?_some h
  simpa using h2

theorem stateOf_undo_filter (cfg : EngineConfig σ) {log : List (LogEntry σ)} {U : LogEntry σ}
    {tid cut : ComparableId}
    (hsort : SortedLog log)
    (hnoop : ∀ s, applyStep cfg.tree s U.action = s)
    (hcut : idLt cut tid) :
    stateOf cfg ((insertById U (log.filter (fun x => !(x.id == tid)))).filter
        (fun x => decide (idLe x.id cut))) =
      stateOf cfg (log.filter (fun x => decide (idLe x.id cut))) := by
  rw [filter_insertById _ (sortedLog_filter hsort _)]
  cases hc : decide (idLe U.id cut)
  · rw [if_neg Bool.false_ne_true, filter_erase_high hcut]
  · rw [if_pos rfl, stateOf, replayFrom_insert_noop hnoop, filter_erase_high hcut]
    rfl

theorem add_inv_nonundo (cfg : EngineConfig σ) (e : Engine σ) (entry : LogEntry σ)
    (hInv : Inv cfg e) (hclean : e.historyCleaned = false)
    (hfresh : ∀ x ∈ e.log, x.id ≠ entry.id)
    (hty : entry.action.type ≠ "logux/undo") :
    Inv cfg (Engine.add cfg e entry) ∧
    (Engine.add cfg e entry).historyCleaned = false ∧
    List.Perm (Engine.add cfg e entry).log (entry :: e.log) := by
  obtain ⟨hsort, hstate, hsnapok, hanchor⟩ := hInv
  by_cases hfast : ∀ x ∈ e.log, idLt x.id entry.id
  · -- the fast path: append and apply
    have hsorted_app : SortedLog (e.log ++ [entry]) := by
      rw [SortedLog, List.pairwise_append]
      refine ⟨hsort, List.pairwise_singleton _ _, fun x hx y hy => ?_⟩
      rcases List.mem_singleton.mp hy with rfl
      exact hfast x hx
    have hstate' : applyStep cfg.tree e.state entry.action = stateOf cfg (e.log ++ [entry]) := by
      rw [stateOf_append, ← hstate, replayFrom_singleton]
    have holdsnap : ∀ p ∈ e.snapshots, SnapOk cfg (e.log ++ [entry]) p := by
      intro p hp
      obtain ⟨x, hx, hxid⟩ := hanchor p hp
      have hlt : idLt p.1 entry.id := hxid ▸ hfast x hx
      rw [SnapOk, List.filter_append]
      have hnil : [entry].filter (fun y => decide (idLe y.id p.1)) = [] := by
        simp [not_idLe_of_lt hlt]
      rw [hnil, List.append_nil]
      exact hsnapok p hp
    have hperm_app : List.Perm (e.log ++ [entry]) (entry :: e.log) :=
      List.perm_append_singleton entry e.log
    by_cases hsnap : cfg.saveStateEvery ≤ e.sinceSnapshot + 1
    · rw [add_fast_snap_eq cfg e entry hty hfast hsnap]
      dsimp only [Inv]
      refine ⟨⟨hsorted_app, hstate', ?_, ?_⟩, hclean, hperm_app⟩
      · intro p hp
        rcases List.mem_append.mp hp with hp' | hp'
        · exact holdsnap p hp'
        · rcases List.mem_singleton.mp hp' with rfl
          rw [SnapOk]
          have hall : (e.log ++ [entry]).filter (fun y => decide (idLe y.id entry.id)) =
              e.log ++ [entry] := by
            rw [List.filter_eq_self]
            intro y hy
            rcases List.mem_append.mp hy with hy' | hy'
            · exact decide_eq_true (idLe_of_lt (hfast y hy'))
            · rcases List.mem_singleton.mp hy' with rfl
              exact decide_eq_true (idLe_refl _)
          rw [hall]
          exact hstate'
      · intro p hp
        rcases List.mem_append.mp hp with hp' | hp'
        · obtain ⟨x, hx, hxid⟩ := hanchor p hp'
          exact ⟨x, List.mem_append_left _ hx, hxid⟩
        · rcases List.mem_singleton.mp hp' with rfl
          exact ⟨entry, List.mem_append_right _ (List.mem_singleton_self entry), rfl⟩
    · rw [add_fast_nosnap_eq cfg e entry hty hfast hsnap]
      dsimp only [Inv]
      refine ⟨⟨hsorted_app, hstate', holdsnap, ?_⟩, hclean, hperm_app⟩
      intro p hp
      obtain ⟨x, hx, hxid⟩ := hanchor p hp
      exact ⟨x, List.mem_append_left _ hx, hxid⟩
  · -- the Replaying transition
    have hsortNew : SortedLog (insertById entry e.log) := insertById_sorted hsort hfresh
    have hpermNew : List.Perm (insertById entry e.log) (entry :: e.log) :=
      insertById_perm entry e.log
    cases hsb : snapBefore entry.id e.snapshots with
    | some p =>
      obtain ⟨aid, s0⟩ := p
      obtain ⟨hmem, haidlt⟩ := snapBefore_mem hsb
      have hs0 := hsnapok _ hmem
      rw [SnapOk] at hs0
      dsimp only at hs0
      have hfA : (insertById entry e.log).filter (fun x => decide (idLe x.id aid)) =
          e.log.filter (fun x => decide (idLe x.id aid)) := by
        rw [filter_insertById _ hsort, decide_eq_false (not_idLe_of_lt haidlt),
          if_neg Bool.false_ne_true]
      have hsplit := sorted_split aid hsortNew
      have hstateNew : replayFrom cfg.tree s0
          ((insertById entry e.log).filter (fun x => decide (idLt aid x.id))) =
          stateOf cfg (insertById entry e.log) := by
        conv_rhs => rw [← hsplit]
        rw [stateOf_append, hfA, ← hs0]
      rw [add_replay_snap_eq cfg e entry aid s0 hty hfast hsb]
      dsimp only [Inv]
      refine ⟨⟨hsortNew, hstateNew, ?_, ?_⟩, hclean, hpermNew⟩
      · intro q hq
        obtain ⟨hq', hqle⟩ := List.mem_filter.mp hq
        have hqle' : idLe q.1 aid := of_decide_eq_true hqle
        have hqlt : idLt q.1 entry.id := idLe_lt_trans hqle' haidlt
        have hqok := hsnapok q hq'
        rw [SnapOk] at hqok ⊢
        rw [filter_insertById _ hsort, decide_eq_false (not_idLe_of_lt hqlt),
          if_neg Bool.false_ne_true]
        exact hqok
      · intro q hq
        obtain ⟨hq', _⟩ := List.mem_filter.mp hq
        obtain ⟨x, hx, hxid⟩ := hanchor q hq'
        exact ⟨x, insertById_mem.mpr (Or.inr hx), hxid⟩
    | none =>
      rw [add_replay_none_eq cfg e entry hty hfast hsb hclean]
      dsimp only [Inv]
      refine ⟨⟨hsortNew, rfl, ?_, ?_⟩, hclean, hpermNew⟩ <;>
        intro q hq <;> exact absurd hq (by simp)

theorem add_inv_undo (cfg : EngineConfig σ) (e : Engine σ) (entry : LogEntry σ)
    (tid : ComparableId) (target : LogEntry σ)
    (hInv : Inv cfg e)
    (hfresh : ∀ x ∈ e.log, x.id ≠ entry.id)
    (hty : entry.action.type = "logux/undo")
    (htid : entry.action.targetId = some tid)
    (hfind : e.log.find? (fun x => x.id == tid) = some target) :
    Inv cfg (Engine.add cfg e entry) ∧
    (Engine.add cfg e entry).historyCleaned = e.historyCleaned ∧
    List.Perm (Engine.add cfg e entry).log
      ({ entry with reasons := target.reasons } :: e.log.filter (fun x => !(x.id == tid))) := by
  obtain ⟨hsort, hstate, hsnapok, hanchor⟩ := hInv
  have hnoop : ∀ s, applyStep cfg.tree s
      ({ entry with reasons := target.reasons } : LogEntry σ).action = s :=
    fun s => applyStep_undo hty s
  have hsortErased : SortedLog (e.log.filter (fun x => !(x.id == tid))) :=
    sortedLog_filter hsort _
  have hfreshU : ∀ x ∈ e.log.filter (fun x => !(x.id == tid)),
      x.id ≠ ({ entry with reasons := target.reasons } : LogEntry σ).id :=
    fun x hx => hfresh x (List.mem_of_mem_filter hx)
  have hsortNew := insertById_sorted hsortErased hfreshU
  have hpermNew := insertById_perm ({ entry with reasons := target.reasons } : LogEntry σ)
    (e.log.filter (fun x => !(x.id == tid)))
  cases hsb : snapBefore tid e.snapshots with
  | some p =>
    obtain ⟨aid, s0⟩ := p
    obtain ⟨hmem, haidlt⟩ := snapBefore_mem hsb
    have hs0 := hsnapok _ hmem
    rw [SnapOk] at hs0
    dsimp only at hs0
    have hkey : stateOf cfg ((insertById { entry with reasons := target.reasons }
        (e.log.filter (fun x => !(x.id == tid)))).filter
          (fun x => decide (idLe x.id aid))) = s0 := by
      rw [stateOf_undo_filter cfg hsort hnoop haidlt]
      exact hs0.symm
    have hsplit := sorted_split aid hsortNew
    have hstateNew : replayFrom cfg.tree s0
        ((insertById { entry with reasons := target.reasons }
          (e.log.filter (fun x => !(x.id == tid)))).filter
            (fun x => decide (idLt aid x.id))) =
        stateOf cfg (insertById { entry with reasons := target.reasons }
          (e.log.filter (fun x => !(x.id == tid)))) := by
      conv_rhs => rw [← hsplit]
      rw [stateOf_append, hkey]
    rw [add_undo_found_snap_eq cfg e entry tid target aid s0 hty htid hfind hsb]
    dsimp only [Inv]
    refine ⟨⟨hsortNew, hstateNew, ?_, ?_⟩, rfl, hpermNew⟩
    · intro q hq
      obtain ⟨hq2, hqle⟩ := List.mem_filter.mp hq
      have hqle2 : idLe q.1 aid := of_decide_eq_true hqle
      have hqok := hsnapok q hq2
      rw [SnapOk] at hqok ⊢
      rw [stateOf_undo_filter cfg hsort hnoop (idLe_lt_trans hqle2 haidlt)]
      exact hqok
    · intro q hq
      obtain ⟨hq2, hqle⟩ := List.mem_filter.mp hq
      obtain ⟨x, hx, hxid⟩ := hanchor q hq2
      have hqle2 : idLe q.1 aid := of_decide_eq_true hqle
      have hxne : (x.id == tid) = false := by
        rw [beq_eq_false_iff_ne, hxid]
        exact idLt_ne (idLe_lt_trans hqle2 haidlt)
      refine ⟨x, insertById_mem.mpr (Or.inr ?_), hxid⟩
      exact List.mem_filter.mpr ⟨hx, by simp [hxne]⟩
  | none =>
    rw [add_undo_found_none_eq cfg e entry tid target hty htid hfind hsb]
    dsimp only [Inv]
    refine ⟨⟨hsortNew, rfl, ?_, ?_⟩, rfl, hpermNew⟩ <;>
      intro q hq <;> exact absurd hq (by simp)

theorem observe_inv (cfg : EngineConfig σ) (l : List (LogEntry σ)) :
    ∀ (e : Engine σ), Inv cfg e → e.historyCleaned = false →
    (∀ en ∈ l, en.action.type ≠ "logux/undo") →
    ((e.log.map (fun x => x.id)) ++ l.map (fun en => en.id)).Nodup →
    Inv cfg (observeAll cfg e l) ∧ (observeAll cfg e l).historyCleaned = false ∧
    List.Perm (observeAll cfg e l).log (l ++ e.log) := by
  induction l with
  | nil =>
    intro e hInv hclean _ _
    exact ⟨hInv, hclean, List.Perm.refl _⟩
  | cons en rest ih =>
    intro e hInv hclean hnoundo hnodup
    have hfresh : ∀ x ∈ e.log, x.id ≠ en.id := by
      intro x hx heq
      have hd := (List.nodup_append.mp hnodup).2.2
      have hxA : x.id ∈ e.log.map (fun y => y.id) := List.mem_map_of_mem _ hx
      have hxB : x.id ∈ (en :: rest).map (fun y => y.id) := by
        rw [heq]
        exact List.mem_map_of_mem _ (List.mem_cons_self en rest)
      exact hd hxA hxB
    obtain ⟨hInv2, hclean2, hperm2⟩ :=
      add_inv_nonundo cfg e en hInv hclean hfresh (hnoundo en (List.mem_cons_self en rest))
    have hnodup2 : (((Engine.add cfg e en).log.map (fun x => x.id)) ++
        rest.map (fun en => en.id)).Nodup := by
      have hmap : List.Perm ((Engine.add cfg e en).log.map (fun x => x.id))
          (en.id :: e.log.map (fun x => x.id)) := hperm2.map _
      have hall : List.Perm
          (((Engine.add cfg e en).log.map (fun x => x.id)) ++ rest.map (fun en => en.id))
          ((e.log.map (fun x => x.id)) ++ (en :: rest).map (fun en => en.id)) := by
        refine (hmap.append_right _).trans ?_
        rw [List.map_cons]
        exact List.perm_middle.symm
      exact hall.symm.nodup hnodup
    obtain ⟨hI, hc, hp⟩ := ih (Engine.add cfg e en) hInv2 hclean2
      (fun x hx => hnoundo x (List.mem_cons_of_mem en hx)) hnodup2
    refine ⟨hI, hc, ?_⟩
    exact hp.trans ((hperm2.append_left rest).trans List.perm_middle)

theorem sortById_perm (l : List (LogEntry σ)) : List.Perm (sortById l) l := by
  induction l with
  | nil => exact List.Perm.refl _
  | cons x xs ih => exact (insertById_perm x (sortById xs)).trans (ih.cons x)

theorem sortById_sorted {l : List (LogEntry σ)} (hnodup : (l.map (fun x => x.id)).Nodup) :
    SortedLog (sortById l) := by
  induction l with
  | nil => exact List.Pairwise.nil
  | cons x xs ih =>
    rw [List.map_cons, List.nodup_cons] at hnodup
    refine insertById_sorted (ih hnodup.2) ?_
    intro y hy heq
    exact hnodup.1 (heq ▸ List.mem_map_of_mem _ ((sortById_perm xs).mem_iff.mp hy))

/-! ## C1: determinism of arrival order -/

/-- C1: For every fixed set of log entries with distinct totally-ordered ids
(and no `logux/undo` control entries, which are routed to the Undo Processor
rather than applied), the final state after the History Engine has observed
all of them is the same for every permutation of their arrival order, and
equals the state obtained by applying their mutations in ascending id order
starting from the initial state. -/
theorem determinism_of_arrival_order (cfg : EngineConfig σ)
    (entries arrival : List (LogEntry σ))
    (hperm : List.Perm arrival entries)
    (hnodup : (entries.map (fun en => en.id)).Nodup)
    (hnoundo : ∀ en ∈ entries, en.action.type ≠ "logux/undo") :
    (observeAll cfg (initEngine cfg) arrival).state =
      stateOf cfg (sortById entries) := by
  have harrnodup : (arrival.map (fun en => en.id)).Nodup :=
    ((hperm.map (fun en => en.id)).symm).nodup hnodup
  have hnodup2 : (((initEngine cfg : Engine σ).log.map (fun x => x.id)) ++
      arrival.map (fun en => en.id)).Nodup := by
    simpa [initEngine] using harrnodup
  obtain ⟨hInvF, _, hpermF⟩ :=
    observe_inv cfg arrival (initEngine cfg) (inv_init cfg) rfl
      (fun en hen => hnoundo en (hperm.subset hen)) hnodup2
  have hlogF : (observeAll cfg (initEngine cfg) arrival).log = sortById entries := by
    apply sorted_perm_eq _ hInvF.1 (sortById_sorted hnodup)
    refine hpermF.trans ?_
    show List.Perm (arrival ++ []) (sortById entries)
    rw [List.append_nil]
    exact hperm.trans (sortById_perm entries).symm
  rw [hInvF.2.1, hlogF]

theorem determinism_of_arrival_order_witness :
    (observeAll cfgW (initEngine cfgW) [entW 2 "b", entW 1 "a"]).state =
      stateOf cfgW (sortById [entW 1 "a", entW 2 "b"]) :=
  determinism_of_arrival_order cfgW [entW 1 "a", entW 2 "b"] [entW 2 "b", entW 1 "a"]
    (by decide) (by decide) (by decide)

/-! ## C2: undo correctness -/

theorem add_fast_state (cfg : EngineConfig σ) (e : Engine σ) (entry : LogEntry σ)
    (hty : entry.action.type ≠ "logux/undo")
    (hfast : ∀ x ∈ e.log, idLt x.id entry.id) :
    (Engine.add cfg e entry).state = applyStep cfg.tree e.state entry.action := by
  by_cases hsnap : cfg.saveStateEvery ≤ e.sinceSnapshot + 1
  · rw [add_fast_snap_eq cfg e entry hty hfast hsnap]
  · rw [add_fast_nosnap_eq cfg e entry hty hfast hsnap]

/-- C2: applying entries `A`, `B`, `C` in ascending id order and then
processing a `logux/undo` control action targeting `B` yields a final state
equal to the state obtained by applying only `A` and `C` in order; a
subsequent entry `D` is applied on top of that recomputed state. -/
theorem undo_correctness (cfg : EngineConfig σ) (A B C U D : LogEntry σ)
    (hAB : idLt A.id B.id) (hBC : idLt B.id C.id) (hCU : idLt C.id U.id)
    (hUD : idLt U.id D.id)
    (hA : A.action.type ≠ "logux/undo") (hB : B.action.type ≠ "logux/undo")
    (hC : C.action.type ≠ "logux/undo") (hD : D.action.type ≠ "logux/undo")
    (hU : U.action.type = "logux/undo") (hUtarget : U.action.targetId = some B.id) :
    (observeAll cfg (initEngine cfg) [A, B, C, U]).state =
      applyStep cfg.tree (applyStep cfg.tree cfg.initialState A.action) C.action ∧
    (observeAll cfg (initEngine cfg) [A, B, C, U, D]).state =
      applyStep cfg.tree (applyStep cfg.tree
        (applyStep cfg.tree cfg.initialState A.action) C.action) D.action := by
  have hAC := idLt_trans hAB hBC
  have hAU := idLt_trans hAC hCU
  have hBU := idLt_trans hBC hCU
  have hno3 : ∀ en ∈ [A, B, C], en.action.type ≠ "logux/undo" := by
    intro en hen
    rcases List.mem_cons.mp hen with rfl | hen
    · exact hA
    rcases List.mem_cons.mp hen with rfl | hen
    · exact hB
    rcases List.mem_singleton.mp hen with rfl
    exact hC
  have hnd3 : (((initEngine cfg : Engine σ).log.map (fun x => x.id)) ++
      [A, B, C].map (fun en => en.id)).Nodup := by
    show ([] ++ [A.id, B.id, C.id]).Nodup
    rw [List.nil_append]
    refine List.nodup_cons.mpr ⟨?_, List.nodup_cons.mpr ⟨?_, List.nodup_cons.mpr
      ⟨List.not_mem_nil _, List.nodup_nil⟩⟩⟩
    · intro h
      rcases List.mem_cons.mp h with h | h
      · exact idLt_ne hAB h
      · rcases List.mem_singleton.mp h with h
        exact idLt_ne hAC h
    · intro h
      rcases List.mem_singleton.mp h with h
      exact idLt_ne hBC h
  obtain ⟨hInv3, hclean3, hperm3⟩ :=
    observe_inv cfg [A, B, C] (initEngine cfg) (inv_init cfg) rfl hno3 hnd3
  have hsorted3 : SortedLog [A, B, C] := by
    refine List.Pairwise.cons ?_ (List.Pairwise.cons ?_ (List.pairwise_singleton _ _))
    · intro y hy
      rcases List.mem_cons.mp hy with rfl | hy
      · exact hAB
      · rcases List.mem_singleton.mp hy with rfl
        exact hAC
    · intro y hy
      rcases List.mem_singleton.mp hy with rfl
      exact hBC
  have hlog3 : (observeAll cfg (initEngine cfg) [A, B, C]).log = [A, B, C] := by
    apply sorted_perm_eq _ hInv3.1 hsorted3
    refine hperm3.trans ?_
    show List.Perm ([A, B, C] ++ []) [A, B, C]
    rw [List.append_nil]
  have hABne : (A.id == B.id) = false := beq_eq_false_iff_ne.mpr (idLt_ne hAB)
  have hBBeq : (B.id == B.id) = true := beq_self_eq_true _
  have hCBne : (C.id == B.id) = false :=
    beq_eq_false_iff_ne.mpr (fun hh => idLt_ne hBC hh.symm)
  have hfind : (observeAll cfg (initEngine cfg) [A, B, C]).log.find?
      (fun x => x.id == B.id) = some B := by
    rw [hlog3]
    simp [List.find?_cons, hABne, hBBeq]
  have hfreshU : ∀ x ∈ (observeAll cfg (initEngine cfg) [A, B, C]).log,
      x.id ≠ U.id := by
    rw [hlog3]
    intro x hx
    rcases List.mem_cons.mp hx with rfl | hx
    · exact idLt_ne hAU
    rcases List.mem_cons.mp hx with rfl | hx
    · exact idLt_ne hBU
    rcases List.mem_singleton.mp hx with rfl
    exact idLt_ne hCU
  obtain ⟨hInvU, hcleanU, hpermU⟩ :=
    add_inv_undo cfg (observeAll cfg (initEngine cfg) [A, B, C]) U B.id B hInv3
      hfreshU hU hUtarget hfind
  have hfilter : (observeAll cfg (initEngine cfg) [A, B, C]).log.filter
      (fun x => !(x.id == B.id)) = [A, C] := by
    rw [hlog3]
    simp [List.filter_cons, hABne, hBBeq, hCBne]
  rw [hfilter] at hpermU
  have hsortedACU : SortedLog [A, C, ({ U with reasons := B.reasons } : LogEntry σ)] := by
    refine List.Pairwise.cons ?_ (List.Pairwise.cons ?_ (List.pairwise_singleton _ _))
    · intro y hy
      rcases List.mem_cons.mp hy with rfl | hy
      · exact hAC
      · rcases List.mem_singleton.mp hy with rfl
        exact hAU
    · intro y hy
      rcases List.mem_singleton.mp hy with rfl
      exact hCU
  have hlogU : (Engine.add cfg (observeAll cfg (initEngine cfg) [A, B, C]) U).log =
      [A, C, { U with reasons := B.reasons }] := by
    apply sorted_perm_eq _ hInvU.1 hsortedACU
    refine hpermU.trans ?_
    exact (List.perm_append_singleton _ _).symm
  have hstateU : (Engine.add cfg (observeAll cfg (initEngine cfg) [A, B, C]) U).state =
      applyStep cfg.tree (applyStep cfg.tree cfg.initialState A.action) C.action := by
    rw [hInvU.2.1, hlogU, stateOf, replayFrom_cons, replayFrom_cons, replayFrom_cons,
      applyStep_undo (show ({ U with reasons := B.reasons } : LogEntry σ).action.type =
        "logux/undo" from hU)]
    rfl
  constructor
  · exact hstateU
  · have hfastD : ∀ x ∈ (Engine.add cfg (observeAll cfg (initEngine cfg) [A, B, C]) U).log,
        idLt x.id D.id := by
      rw [hlogU]
      intro x hx
      rcases List.mem_cons.mp hx with rfl | hx
      · exact idLt_trans hAU hUD
      rcases List.mem_cons.mp hx with rfl | hx
      · exact idLt_trans hCU hUD
      rcases List.mem_singleton.mp hx with rfl
      exact hUD
    have hstep := add_fast_state cfg _ D hD hfastD
    show (Engine.add cfg (Engine.add cfg (observeAll cfg (initEngine cfg) [A, B, C]) U)
      D).state = _
    rw [hstep, hstateU]

theorem undo_correctness_witness :
    (observeAll cfgW (initEngine cfgW) [entW 1 "a", entW 2 "b", entW 3 "c",
        undoW 4 (idW 2)]).state =
      applyStep cfgW.tree (applyStep cfgW.tree cfgW.initialState
        (entW 1 "a").action) (entW 3 "c").action ∧
    (observeAll cfgW (initEngine cfgW) [entW 1 "a", entW 2 "b", entW 3 "c",
        undoW 4 (idW 2), entW 5 "d"]).state =
      applyStep cfgW.tree (applyStep cfgW.tree (applyStep cfgW.tree cfgW.initialState
        (entW 1 "a").action) (entW 3 "c").action) (entW 5 "d").action :=
  undo_correctness cfgW (entW 1 "a") (entW 2 "b") (entW 3 "c") (undoW 4 (idW 2)) (entW 5 "d")
    (by decide) (by decide) (by decide) (by decide) (by decide) (by decide)
    (by decide) (by decide) (by decide) (by decide)

/-! ## C4: control actions never invoke mutations -/

/-- C4: in every replay pass and in every fast-path application, entries
whose action type is `logux/processed`, `logux/subscribe` or
`logux/unsubscribe` never invoke a user mutation, even when a mutation
function is registered under that type: one applier step on such an action
leaves any state unchanged, and erasing such an entry from any replay
sequence does not change the replay's result. -/
theorem control_actions_never_mutate (tree : MutationTree σ) (a : Action σ)
    (h : a.type = "logux/processed" ∨ a.type = "logux/subscribe" ∨
      a.type = "logux/unsubscribe") :
    (∀ s : σ, applyStep tree s a = s) ∧
    (∀ (s : σ) (en : LogEntry σ) (l₁ l₂ : List (LogEntry σ)), en.action = a →
      replayFrom tree s (l₁ ++ en :: l₂) = replayFrom tree s (l₁ ++ l₂)) := by
  have hmem : a.type ∈ excludedTypes := by
    rcases h with h | h | h <;> rw [h] <;> decide
  refine ⟨fun s => applyStep_excluded hmem s, fun s en l₁ l₂ hen => ?_⟩
  exact replayFrom_middle_noop
    (fun s2 => by rw [hen]; exact applyStep_excluded hmem s2) s l₁ l₂

theorem control_actions_never_mutate_witness :
    applyStep treeCtl 7 ctlA = 7 ∧
    replayFrom treeCtl 7 ([] ++ ctlEnt :: []) = replayFrom treeCtl 7 ([] ++ []) :=
  ⟨(control_actions_never_mutate treeCtl ctlA (Or.inl rfl)).1 7,
   (control_actions_never_mutate treeCtl ctlA (Or.inl rfl)).2 7 ctlEnt [] [] rfl⟩

/-! ## C7: unknown mutations -/

/-- C7 counterexample: `logux/state` has no mutation registered in the
Mutation Tree, yet committing it changes the state (it performs a full state
replacement, exactly as the cited test drives it at
`src/unnamed/part_000:110`), so the claim "every committed action whose type
has no registered mutation leaves the state unchanged" is false as stated. -/
theorem unknown_mutation_not_noop_cex :
    mutLookup treeInc "logux/state" = none ∧
    (Engine.add cfgN (initEngine cfgN) stateEnt).state ≠ (initEngine cfgN).state :=
  ⟨rfl, by decide⟩

/-- C7 (amended): for every committed action whose type is not one of the
`logux/` control types and has no mutation registered in the Mutation Tree,
applying it leaves the state unchanged and raises no error, while the action
is still recorded in the log. -/
theorem unknown_mutation_noop (cfg : EngineConfig σ) (e : Engine σ) (entry : LogEntry σ)
    (hInv : Inv cfg e) (hclean : e.historyCleaned = false)
    (hfresh : ∀ x ∈ e.log, x.id ≠ entry.id)
    (hstate : entry.action.type ≠ "logux/state")
    (hexcl : entry.action.type ∉ excludedTypes)
    (hmiss : mutLookup cfg.tree entry.action.type = none) :
    (Engine.add cfg e entry).state = e.state ∧
    entry ∈ (Engine.add cfg e entry).log := by
  have hty : entry.action.type ≠ "logux/undo" := by
    intro hh
    exact hexcl (by rw [hh]; decide)
  obtain ⟨hInv2, _, hperm2⟩ := add_inv_nonundo cfg e entry hInv hclean hfresh hty
  have hnoop : ∀ s, applyStep cfg.tree s entry.action = s :=
    fun s => applyStep_unknown hstate hexcl hmiss s
  have hlog2 : (Engine.add cfg e entry).log = insertById entry e.log :=
    sorted_perm_eq (hperm2.trans (insertById_perm entry e.log).symm) hInv2.1
      (insertById_sorted hInv.1 hfresh)
  constructor
  · rw [hInv2.2.1, hlog2, stateOf, replayFrom_insert_noop hnoop]
    exact hInv.2.1.symm
  · rw [hlog2]
    exact insertById_mem.mpr (Or.inl rfl)

theorem unknown_mutation_noop_witness :
    (Engine.add cfgN (initEngine cfgN) unkEnt).state = (initEngine cfgN).state ∧
    unkEnt ∈ (Engine.add cfgN (initEngine cfgN) unkEnt).log :=
  unknown_mutation_noop cfgN (initEngine cfgN) unkEnt (inv_init cfgN) rfl
    (by decide) (by decide) (by decide) rfl

/-! ## C8: undoing an already-cleaned action -/

/-- C8: a `logux/undo` control action whose target id matches no entry
currently in the log performs no state change and raises no error; the undo
entry itself is still inserted into the log. -/
theorem undo_missing_target_noop (cfg : EngineConfig σ) (e : Engine σ)
    (entry : LogEntry σ) (tid : ComparableId)
    (hty : entry.action.type = "logux/undo")
    (htid : entry.action.targetId = some tid)
    (habsent : ∀ x ∈ e.log, x.id ≠ tid) :
    (Engine.add cfg e entry).state = e.state ∧
    (Engine.add cfg e entry).log = insertById entry e.log := by
  have hfind : e.log.find? (fun x => x.id == tid) = none := by
    rw [List.find?_eq_none]
    intro x hx
    simp [habsent x hx]
  rw [add_undo_missing_eq cfg e entry tid hty htid hfind]
  exact ⟨rfl, rfl⟩

theorem undo_missing_target_noop_witness :
    (Engine.add cfgN (initEngine cfgN) undoEntN).state = (initEngine cfgN).state ∧
    (Engine.add cfgN (initEngine cfgN) undoEntN).log =
      insertById undoEntN (initEngine cfgN).log :=
  undo_missing_target_noop cfgN (initEngine cfgN) undoEntN (idW 9)
    (by decide) (by decide) (by decide)

/-! ## C9: undo records inherit the reverted entry's reasons -/

/-- C9: when a `logux/undo` control action reverts an entry that is present
in the log, the undo's own log record carries exactly the reverted entry's
reasons set, so it is retained by the same reasons that retained the
original action. -/
theorem undo_copies_reasons (cfg : EngineConfig σ) (e : Engine σ)
    (entry target : LogEntry σ) (tid : ComparableId)
    (hty : entry.action.type = "logux/undo")
    (htid : entry.action.targetId = some tid)
    (hfind : e.log.find? (fun x => x.id == tid) = some target) :
    ({ entry with reasons := target.reasons } : LogEntry σ) ∈
      (Engine.add cfg e entry).log := by
  cases hsb : snapBefore tid e.snapshots with
  | some p =>
    obtain ⟨aid, s0⟩ := p
    rw [add_undo_found_snap_eq cfg e entry tid target aid s0 hty htid hfind hsb]
    exact insertById_mem.mpr (Or.inl rfl)
  | none =>
    rw [add_undo_found_none_eq cfg e entry tid target hty htid hfind hsb]
    exact insertById_mem.mpr (Or.inl rfl)

theorem undo_copies_reasons_witness :
    ({ undoW 2 (idW 1) with reasons := (entW 1 "a").reasons } : LogEntry String) ∈
      (Engine.add cfgW engW (undoW 2 (idW 1))).log :=
  undo_copies_reasons cfgW engW (undoW 2 (idW 1)) (entW 1 "a") (idW 1)
    (by decide) (by decide) (by decide)

/-! ## C5: the missed-history degraded path -/

/-- C5: when an entry arrives whose id is older than all retained history —
no snapshot at or before its id, and history has been cleaned — and the
entry does not declare itself exempt, the engine still applies the entry's
mutation (the new state is the replay, on top of the oldest available state
with the entry's mutation applied first, of the retained entries above that
base), records the entry in the log, and reports the action to the
missed-history callback exactly once. -/
theorem missed_history_degraded_path (cfg : EngineConfig σ) (e : Engine σ)
    (entry : LogEntry σ)
    (hty : entry.action.type ≠ "logux/undo")
    (hold : ∃ x ∈ e.log, idLt entry.id x.id)
    (hsb : snapBefore entry.id e.snapshots = none)
    (hclean : e.historyCleaned = true)
    (hna : entry.noAutoReason = false) :
    (Engine.add cfg e entry).missed = e.missed ++ [entry.action] ∧
    (Engine.add cfg e entry).state =
      replayFrom cfg.tree (applyStep cfg.tree (missedBase cfg e).1 entry.action)
        (missedBase cfg e).2 ∧
    (Engine.add cfg e entry).log = insertById entry e.log := by
  have hnfast : ¬ ∀ x ∈ e.log, idLt x.id entry.id := by
    intro hall
    obtain ⟨x, hx, hlt⟩ := hold
    exact idLt_asymm hlt (hall x hx)
  rw [add_missed_eq cfg e entry hty hnfast hsb hclean hna]
  exact ⟨rfl, rfl, rfl⟩

theorem missed_history_degraded_path_witness :
    (Engine.add cfgW engC (entW 1 "a")).missed =
      engC.missed ++ [(entW 1 "a").action] ∧
    (Engine.add cfgW engC (entW 1 "a")).state =
      replayFrom cfgW.tree
        (applyStep cfgW.tree (missedBase cfgW engC).1 (entW 1 "a").action)
        (missedBase cfgW engC).2 ∧
    (Engine.add cfgW engC (entW 1 "a")).log = insertById (entW 1 "a") engC.log :=
  missed_history_degraded_path cfgW engC (entW 1 "a") (by decide)
    ⟨entW 2 "b", by decide, by decide⟩ (by decide) rfl rfl

/-! ## C6: the garbage-collection retained-count ceiling -/

theorem add_fast_log (cfg : EngineConfig σ) (e : Engine σ) (entry : LogEntry σ)
    (hty : entry.action.type ≠ "logux/undo")
    (hfast : ∀ x ∈ e.log, idLt x.id entry.id) :
    (Engine.add cfg e entry).log = e.log ++ [entry] ∧
    (Engine.add cfg e entry).nextTime = e.nextTime := by
  by_cases hsnap : cfg.saveStateEvery ≤ e.sinceSnapshot + 1
  · rw [add_fast_snap_eq cfg e entry hty hfast hsnap]
    exact ⟨rfl, rfl⟩
  · rw [add_fast_nosnap_eq cfg e entry hty hfast hsnap]
    exact ⟨rfl, rfl⟩

theorem gcSweep_length (cfg : EngineConfig σ) (e : Engine σ) :
    (gcSweep cfg e).log.length = min e.log.length cfg.reasonlessHistory := by
  rw [gcSweep]
  by_cases h : e.log.length ≤ cfg.reasonlessHistory
  · rw [if_pos h]
    omega
  · rw [if_neg h]
    show (e.log.drop (e.log.length - cfg.reasonlessHistory)).length = _
    rw [List.length_drop]
    omega

theorem gcSweep_nextTime (cfg : EngineConfig σ) (e : Engine σ) :
    (gcSweep cfg e).nextTime = e.nextTime := by
  rw [gcSweep]
  by_cases h : e.log.length ≤ cfg.reasonlessHistory
  · rw [if_pos h]
  · rw [if_neg h]

theorem gcSweep_log_subset (cfg : EngineConfig σ) (e : Engine σ) :
    ∀ x ∈ (gcSweep cfg e).log, x ∈ e.log := by
  intro x hx
  rw [gcSweep] at hx
  by_cases h : e.log.length ≤ cfg.reasonlessHistory
  · rw [if_pos h] at hx
    exact hx
  · rw [if_neg h] at hx
    exact List.mem_of_mem_drop hx

theorem commitDefault_spec (cfg : EngineConfig σ) (e : Engine σ) (a : Action σ)
    (hty : a.type ≠ "logux/undo")
    (hids : ∀ x ∈ e.log, x.id.time < e.nextTime) :
    (commitDefault cfg e a).log.length = min (e.log.length + 1) cfg.reasonlessHistory ∧
    (∀ x ∈ (commitDefault cfg e a).log, x.id.time < (commitDefault cfg e a).nextTime) ∧
    (commitDefault cfg e a).nextTime = e.nextTime + 1 := by
  have hfast : ∀ x ∈ ({ e with nextTime := e.nextTime + 1 } : Engine σ).log,
      idLt x.id ({ time := e.nextTime, node := 0, counter := 0 } : ComparableId) :=
    fun x hx => Or.inl (hids x hx)
  obtain ⟨hlogE, hntE⟩ := add_fast_log cfg { e with nextTime := e.nextTime + 1 }
    { action := a, id := { time := e.nextTime, node := 0, counter := 0 },
      reasons := ["timeTravelTab"], time := e.nextTime } hty hfast
  have hcd : commitDefault cfg e a =
      gcSweep cfg (Engine.add cfg { e with nextTime := e.nextTime + 1 }
        { action := a, id := { time := e.nextTime, node := 0, counter := 0 },
          reasons := ["timeTravelTab"], time := e.nextTime }) := rfl
  rw [hcd]
  refine ⟨?_, ?_, ?_⟩
  · rw [gcSweep_length, hlogE, List.length_append]
    rfl
  · intro x hx
    rw [gcSweep_nextTime, hntE]
    have hx2 := gcSweep_log_subset cfg _ x hx
    rw [hlogE] at hx2
    rcases List.mem_append.mp hx2 with h | h
    · exact Nat.lt_succ_of_lt (hids x h)
    · rcases List.mem_singleton.mp h with rfl
      exact Nat.lt_succ_self _
  · rw [gcSweep_nextTime, hntE]

theorem foldl_commitDefault_spec (cfg : EngineConfig σ) (acts : List (Action σ)) :
    ∀ (e : Engine σ), (∀ a ∈ acts, a.type ≠ "logux/undo") →
    (∀ x ∈ e.log, x.id.time < e.nextTime) →
    e.log.length ≤ cfg.reasonlessHistory →
    (acts.foldl (commitDefault cfg) e).log.length =
      min (e.log.length + acts.length) cfg.reasonlessHistory := by
  induction acts with
  | nil =>
    intro e _ _ hlen
    show e.log.length = min (e.log.length + 0) cfg.reasonlessHistory
    omega
  | cons a rest ih =>
    intro e hno hids hlen
    obtain ⟨hlen1, hids1, _⟩ :=
      commitDefault_spec cfg e a (hno a (List.mem_cons_self a rest)) hids
    have hrec := ih (commitDefault cfg e a)
      (fun b hb => hno b (List.mem_cons_of_mem a hb)) hids1
      (by rw [hlen1]; exact Nat.min_le_right _ _)
    show ((rest.foldl (commitDefault cfg) (commitDefault cfg e a)).log).length = _
    rw [hrec, hlen1, List.length_cons]
    omega

/-- C6: under the default configuration — `reasonlessHistory` left at its
default ceiling of 1000 — after any number of default-mode commits the
retained log holds exactly `min n 1000` entries: the Garbage Collector
removes the oldest entries as soon as the ceiling is exceeded, even though
every default commit carries the automatic per-tab retention reason. -/
theorem gc_retained_ceiling (tree : MutationTree σ) (s0 : σ) (acts : List (Action σ))
    (hno : ∀ a ∈ acts, a.type ≠ "logux/undo") :
    ((acts.foldl (commitDefault { tree := tree, initialState := s0 })
        (initEngine { tree := tree, initialState := s0 })).log).length =
      min acts.length 1000 := by
  have h := foldl_commitDefault_spec { tree := tree, initialState := s0 } acts
    (initEngine { tree := tree, initialState := s0 }) hno
    (fun x hx => absurd hx (by simp [initEngine]))
    (by show (0 : Nat) ≤ 1000; omega)
  simpa [initEngine] using h

theorem gc_retained_ceiling_witness :
    (([{ type := "inc" }, { type := "inc" }, { type := "inc" }] :
        List (Action Nat)).foldl
      (commitDefault { tree := treeInc, initialState := 0 })
      (initEngine { tree := treeInc, initialState := 0 })).log.length =
      min ([{ type := "inc" }, { type := "inc" }, { type := "inc" }] :
        List (Action Nat)).length 1000 :=
  gc_retained_ceiling treeInc 0 _ (by decide)

/-! ## C3: sync commit acknowledgment correlation -/

theorem pendingLookup_erase (l : List (ComparableId × Action σ))
    (o : List (ComparableId × SyncOutcome σ)) (tid : ComparableId) :
    pendingLookup
      ({ pending := l.filter (fun p => !(decide (p.1 = tid))), outcomes := o } :
        PendingTable σ) tid = none := by
  have hfind : (l.filter (fun p => !(decide (p.1 = tid)))).find?
      (fun p => decide (p.1 = tid)) = none := by
    rw [List.find?_eq_none]
    intro p hp
    have hne := (List.mem_filter.mp hp).2
    simp at hne ⊢
    exact hne
  rw [pendingLookup, hfind]
  rfl

/-- C3: for every sync commit tracked in the pending table, a
`logux/processed` control action with a matching id resolves it — and only
then — while a `logux/undo` with a matching id rejects it, carrying the
undo's reason and the original action; a `logux/processed` or `logux/undo`
whose id matches no pending commit resolves or rejects nothing. -/
theorem sync_ack_correlation (t : PendingTable σ) (tid : ComparableId)
    (r : String) (orig : Action σ) :
    (pendingLookup t tid = some orig →
      (((handleControl t (processedAction σ tid)).outcomes =
          t.outcomes ++ [(tid, SyncOutcome.processedOk)] ∧
        pendingLookup (handleControl t (processedAction σ tid)) tid = none) ∧
       ((handleControl t (undoAction σ tid r)).outcomes =
          t.outcomes ++ [(tid, SyncOutcome.undone r orig)] ∧
        pendingLookup (handleControl t (undoAction σ tid r)) tid = none))) ∧
    (pendingLookup t tid = none →
      handleControl t (processedAction σ tid) = t ∧
      handleControl t (undoAction σ tid r) = t) := by
  have hne : ("logux/undo" : String) ≠ "logux/processed" := by decide
  constructor
  · intro hsome
    refine ⟨⟨?_, ?_⟩, ?_, ?_⟩
    · simp [handleControl, processedAction, hsome]
    · simp [handleControl, processedAction, hsome, pendingLookup_erase]
    · simp [handleControl, undoAction, hne, hsome]
    · simp [handleControl, undoAction, hne, hsome, pendingLookup_erase]
  · intro hnone
    constructor
    · simp [handleControl, processedAction, hnone]
    · simp [handleControl, undoAction, hne, hnone]

theorem sync_ack_correlation_witness :
    (((handleControl tC (processedAction Nat (idW 1))).outcomes =
        tC.outcomes ++ [(idW 1, SyncOutcome.processedOk)] ∧
      pendingLookup (handleControl tC (processedAction Nat (idW 1))) (idW 1) = none) ∧
     ((handleControl tC (undoAction Nat (idW 1) "error")).outcomes =
        tC.outcomes ++ [(idW 1, SyncOutcome.undone "error" actA)] ∧
      pendingLookup (handleControl tC (undoAction Nat (idW 1) "error")) (idW 1) = none)) ∧
    (handleControl tC (processedAction Nat (idW 9)) = tC ∧
      handleControl tC (undoAction Nat (idW 9) "error") = tC) :=
  ⟨(sync_ack_correlation tC (idW 1) "error" actA).1 (by decide),
   (sync_ack_correlation tC (idW 9) "error" actA).2 (by decide)⟩

/-! ## C10: reference-counted channel subscriptions -/

theorem getAssoc_set_self [DecidableEq α] (l : List (α × β)) (k : α) (v : β) :
    getAssoc (setAssoc l k v) k = some v := by
  induction l with
  | nil =>
    show getAssoc [(k, v)] k = some v
    rw [getAssoc, List.find?_cons_of_pos _ (by simp)]
    rfl
  | cons p rest ih =>
    by_cases h : p.1 = k
    · rw [setAssoc, if_pos h, getAssoc, List.find?_cons_of_pos _ (by simp)]
      rfl
    · rw [setAssoc, if_neg h, getAssoc, List.find?_cons_of_neg _ (by simpa using h)]
      exact ih

theorem getAssoc_erase_self [DecidableEq α] (l : List (α × β)) (k : α) :
    getAssoc (eraseAssoc l k) k = none := by
  have hfind : (eraseAssoc l k).find? (fun p => decide (p.1 = k)) = none := by
    rw [List.find?_eq_none]
    intro p hp
    simp only [eraseAssoc] at hp
    have hne := (List.mem_filter.mp hp).2
    simp at hne ⊢
    exact hne
  rw [getAssoc, hfind]
  rfl

theorem subscribeOne_first (s : SubStore) (c : Channel)
    (hcnt : getAssoc s.subscribers (unifyChannel c) = none) :
    subscribeOne s c =
      ({ s with
          subscribers := setAssoc s.subscribers (unifyChannel c) (JsNum.num 1),
          subscriptions := setAssoc s.subscriptions (unifyChannel c) s.nextPromise,
          sentSubscribe := s.sentSubscribe ++ [unifyChannel c],
          nextPromise := s.nextPromise + 1 },
        some s.nextPromise) := by
  simp [subscribeOne, hcnt, getAssoc_set_self]

theorem subscribeOne_again (s : SubStore) (c : Channel) (n : Int) (hn : 1 ≤ n)
    (hcnt : getAssoc s.subscribers (unifyChannel c) = some (JsNum.num n)) :
    subscribeOne s c =
      ({ s with
          subscribers := setAssoc s.subscribers (unifyChannel c) (JsNum.num (n + 1)) },
        getAssoc s.subscriptions (unifyChannel c)) := by
  have h0 : ¬ n = 0 := by omega
  have h1 : ¬ n + 1 = 1 := by omega
  simp [subscribeOne, hcnt, h0, h1]

theorem unsubscribeOne_pos (s : SubStore) (c : Channel) (n : Int)
    (hpos : ¬ n - 1 = 0)
    (hcnt : getAssoc s.subscribers (unifyChannel c) = some (JsNum.num n)) :
    unsubscribeOne s c =
      { s with
        subscribers := setAssoc s.subscribers (unifyChannel c) (JsNum.num (n - 1)) } := by
  simp [unsubscribeOne, hcnt, hpos]

theorem unsubscribeOne_last (s : SubStore) (c : Channel)
    (hcnt : getAssoc s.subscribers (unifyChannel c) = some (JsNum.num 1)) :
    unsubscribeOne s c =
      { s with
        subscribers := setAssoc s.subscribers (unifyChannel c) (JsNum.num 0),
        sentUnsubscribe := s.sentUnsubscribe ++ [unifyChannel c],
        subscriptions := eraseAssoc s.subscriptions (unifyChannel c) } := by
  simp [unsubscribeOne, hcnt]

theorem subscribeN_steady (c : Channel) (m : Nat) :
    ∀ (s : SubStore) (n : Int), 1 ≤ n →
    getAssoc s.subscribers (unifyChannel c) = some (JsNum.num n) →
    getAssoc (subscribeN s c m).1.subscribers (unifyChannel c) =
        some (JsNum.num (n + m)) ∧
    (subscribeN s c m).1.subscriptions = s.subscriptions ∧
    (subscribeN s c m).1.sentSubscribe = s.sentSubscribe ∧
    (subscribeN s c m).1.sentUnsubscribe = s.sentUnsubscribe ∧
    (subscribeN s c m).1.nextPromise = s.nextPromise ∧
    (subscribeN s c m).2 =
      List.replicate m (getAssoc s.subscriptions (unifyChannel c)) := by
  induction m with
  | zero =>
    intro s n hn hcnt
    refine ⟨?_, rfl, rfl, rfl, rfl, rfl⟩
    simpa using hcnt
  | succ m ih =>
    intro s n hn hcnt
    have hstep := subscribeOne_again s c n hn hcnt
    obtain ⟨ih1, ih2, ih3, ih4, ih5, ih6⟩ :=
      ih ({ s with
            subscribers := setAssoc s.subscribers (unifyChannel c) (JsNum.num (n + 1)) })
        (n + 1) (by omega) (getAssoc_set_self _ _ _)
    have harith : (n + 1) + (m : Int) = n + ((m + 1 : Nat) : Int) := by
      push_cast
      ring
    refine ⟨?_, ?_, ?_, ?_, ?_, ?_⟩ <;> simp only [subscribeN, hstep]
    · rw [ih1, harith]
    · exact ih2
    · exact ih3
    · exact ih4
    · exact ih5
    · rw [ih6, List.replicate_succ]

theorem unsubscribeN_steady (c : Channel) (m : Nat) :
    ∀ (s : SubStore) (n : Int), (m : Int) < n →
    getAssoc s.subscribers (unifyChannel c) = some (JsNum.num n) →
    getAssoc (unsubscribeN s c m).subscribers (unifyChannel c) =
        some (JsNum.num (n - m)) ∧
    (unsubscribeN s c m).subscriptions = s.subscriptions ∧
    (unsubscribeN s c m).sentUnsubscribe = s.sentUnsubscribe ∧
    (unsubscribeN s c m).sentSubscribe = s.sentSubscribe ∧
    (unsubscribeN s c m).nextPromise = s.nextPromise := by
  induction m with
  | zero =>
    intro s n hm hcnt
    refine ⟨?_, rfl, rfl, rfl, rfl⟩
    simpa using hcnt
  | succ m ih =>
    intro s n hm hcnt
    have hpos : ¬ n - 1 = 0 := by
      push_cast at hm
      omega
    have hstep := unsubscribeOne_pos s c n hpos hcnt
    obtain ⟨ih1, ih2, ih3, ih4, ih5⟩ :=
      ih ({ s with
            subscribers := setAssoc s.subscribers (unifyChannel c) (JsNum.num (n - 1)) })
        (n - 1) (by push_cast at hm ⊢; omega) (getAssoc_set_self _ _ _)
    have harith : (n - 1) - (m : Int) = n - ((m + 1 : Nat) : Int) := by
      push_cast
      ring
    refine ⟨?_, ?_, ?_, ?_, ?_⟩ <;> simp only [unsubscribeN, hstep]
    · rw [ih1, harith]
    · exact ih2
    · exact ih3
    · exact ih4
    · exact ih5

/-- C10: channel subscriptions are reference-counted per canonical channel
descriptor: starting from a store whose counter for the channel is absent,
`n + 1` consecutive `subscribe` calls send exactly one `logux/subscribe`
sync commit (on the counter's 0 to 1 transition) and every caller receives
the same stored subscription promise; the next `n` `unsubscribe` calls send
nothing and keep the stored promise, and the final one sends exactly one
`logux/unsubscribe` and deletes the stored subscription promise. -/
theorem subscription_refcount (s : SubStore) (c : Channel) (n : Nat)
    (hcnt : getAssoc s.subscribers (unifyChannel c) = none) :
    (subscribeN s c (n + 1)).1.sentSubscribe =
      s.sentSubscribe ++ [unifyChannel c] ∧
    (subscribeN s c (n + 1)).2 = List.replicate (n + 1) (some s.nextPromise) ∧
    getAssoc (subscribeN s c (n + 1)).1.subscribers (unifyChannel c) =
      some (JsNum.num (n + 1)) ∧
    (unsubscribeN (subscribeN s c (n + 1)).1 c n).sentUnsubscribe =
      s.sentUnsubscribe ∧
    getAssoc (unsubscribeN (subscribeN s c (n + 1)).1 c n).subscriptions
      (unifyChannel c) = some s.nextPromise ∧
    (unsubscribeOne (unsubscribeN (subscribeN s c (n + 1)).1 c n) c).sentUnsubscribe =
      s.sentUnsubscribe ++ [unifyChannel c] ∧
    getAssoc
      (unsubscribeOne (unsubscribeN (subscribeN s c (n + 1)).1 c n) c).subscriptions
      (unifyChannel c) = none := by
  have hfirst := subscribeOne_first s c hcnt
  obtain ⟨st1, st2, st3, st4, st5, st6⟩ := subscribeN_steady c n
    ({ s with
        subscribers := setAssoc s.subscribers (unifyChannel c) (JsNum.num 1),
        subscriptions := setAssoc s.subscriptions (unifyChannel c) s.nextPromise,
        sentSubscribe := s.sentSubscribe ++ [unifyChannel c],
        nextPromise := s.nextPromise + 1 })
    1 (by omega) (getAssoc_set_self _ _ _)
  dsimp only at st1 st2 st3 st4 st5 st6
  rw [getAssoc_set_self] at st6
  have hcount : (1 : Int) + (n : Int) = (n : Int) + 1 := by ring
  obtain ⟨ut1, ut2, ut3, ut4, ut5⟩ := unsubscribeN_steady c n _ (1 + (n : Int))
    (by omega) st1
  have hlastcnt : getAssoc
      (unsubscribeN (subscribeN
        ({ s with
            subscribers := setAssoc s.subscribers (unifyChannel c) (JsNum.num 1),
            subscriptions := setAssoc s.subscriptions (unifyChannel c) s.nextPromise,
            sentSubscribe := s.sentSubscribe ++ [unifyChannel c],
            nextPromise := s.nextPromise + 1 }) c n).1 c n).subscribers
      (unifyChannel c) = some (JsNum.num 1) := by
    rw [ut1]
    have : (1 : Int) + (n : Int) - (n : Int) = 1 := by ring
    rw [this]
  have hlast := unsubscribeOne_last _ c hlastcnt
  refine ⟨?_, ?_, ?_, ?_, ?_, ?_, ?_⟩ <;> simp only [subscribeN, hfirst]
  · exact st3
  · rw [st6, List.replicate_succ]
  · rw [st1, hcount]
  · exact ut3.trans st4
  · rw [ut2, st2]
    exact getAssoc_set_self _ _ _
  · rw [hlast]
    show (unsubscribeN _ c n).sentUnsubscribe ++ [unifyChannel c] = _
    rw [ut3, st4]
  · rw [hlast]
    exact getAssoc_erase_self _ _

theorem subscription_refcount_witness :
    (subscribeN ({} : SubStore) (Channel.str "users/5") 2).1.sentSubscribe =
      ({} : SubStore).sentSubscribe ++ [unifyChannel (Channel.str "users/5")] ∧
    (subscribeN ({} : SubStore) (Channel.str "users/5") 2).2 =
      List.replicate 2 (some ({} : SubStore).nextPromise) ∧
    getAssoc (subscribeN ({} : SubStore) (Channel.str "users/5") 2).1.subscribers
      (unifyChannel (Channel.str "users/5")) = some (JsNum.num 2) ∧
    (unsubscribeN (subscribeN ({} : SubStore) (Channel.str "users/5") 2).1
      (Channel.str "users/5") 1).sentUnsubscribe = ({} : SubStore).sentUnsubscribe ∧
    getAssoc (unsubscribeN (subscribeN ({} : SubStore) (Channel.str "users/5") 2).1
      (Channel.str "users/5") 1).subscriptions
      (unifyChannel (Channel.str "users/5")) = some ({} : SubStore).nextPromise ∧
    (unsubscribeOne (unsubscribeN
      (subscribeN ({} : SubStore) (Channel.str "users/5") 2).1
      (Channel.str "users/5") 1) (Channel.str "users/5")).sentUnsubscribe =
      ({} : SubStore).sentUnsubscribe ++ [unifyChannel (Channel.str "users/5")] ∧
    getAssoc (unsubscribeOne (unsubscribeN
      (subscribeN ({} : SubStore) (Channel.str "users/5") 2).1
      (Channel.str "users/5") 1) (Channel.str "users/5")).subscriptions
      (unifyChannel (Channel.str "users/5")) = none :=
  subscription_refcount ({} : SubStore) (Channel.str "users/5") 1 rfl

end LoguxVuex
